import Mathlib

/-!
# Verification of the pml/net network-analysis core

Shallow embedding of the Python sources `pml.py` and `net.py` (Python 2
semantics: `/` on non-negative machine integers is floor division; standard
sets and dicts), together with proofs about the embedded definitions.

The in-memory graph built by `load_graphml` is a node list plus a mapping
from node identifiers to neighbour sets.  The dict of edge sets is modelled
as a total function on strings; the programs only ever look up keys that are
present in the dict (graph nodes), so the value of the function outside the
node set is never observed by the embedded operations.
-/

/-- The in-memory graph of `pml.py` (`{"nodes": [...], "edges": {...}}`). -/
structure Graph where
  nodes : List String
  edges : String → Finset String

/-- The set of node identifiers of the graph. -/
def Graph.nodeF (g : Graph) : Finset String := g.nodes.toFinset

/-- The edge dict of the source graphs maps each node to neighbours that are
themselves nodes (graphml edges join declared nodes). -/
def EdgesClosed (g : Graph) : Prop := ∀ a ∈ g.nodeF, g.edges a ⊆ g.nodeF

instance (g : Graph) : Decidable (EdgesClosed g) := by
  unfold EdgesClosed; infer_instance

/-- Specification-side notion: the set of vertices within `d` hops of `o`. -/
def ball (g : Graph) (o : String) : Nat → Finset String
  | 0 => {o}
  | d + 1 => ball g o d ∪ (ball g o d).biUnion g.edges

/-- Specification-side notion: a walk of a given hop count from `o`. -/
inductive HasWalk (g : Graph) (o : String) : String → Nat → Prop
  | nil : HasWalk g o o 0
  | snoc {m v n} : HasWalk g o m n → v ∈ g.edges m → HasWalk g o v (n + 1)

/-- Accessing the stabilised ball: every ball is contained in the ball of
radius `|nodes|`, which is the set of vertices reachable from `o`. -/
def reachSet (g : Graph) (o : String) : Finset String := ball g o g.nodes.length

/-- Least `d` with `v ∈ ball g o d`, searched up to radius `|nodes|`: the hop
distance from `o` to `v` (length of a shortest walk) for reachable `v`. -/
def hopDist (g : Graph) (o v : String) : Nat :=
  match (List.range (g.nodes.length + 1)).find? (fun d => v ∈ ball g o d) with
  | some d => d
  | none => 0

/-- The `while to_visit:` loop shared by `get_apl` in `pml.py` and `net.py`:

    while to_visit:
        node_plsum += depth * len(to_visit)
        visited |= to_visit
        new_to_visit = set()
        for m in to_visit:
            new_to_visit |= graph["edges"][m]
        to_visit = new_to_visit - visited
        depth += 1

The Python loop has no fuel parameter; the embedding adds one, and the
correctness theorem below shows that with fuel `|nodes| + 1` (enough for the
frontier to be exhausted) the loop reaches its exit condition, so the fuel
never alters the computed result. -/
def bfsLoop (g : Graph) : Nat → Finset String → Finset String → Nat → Nat →
    Nat × Finset String
  | 0, visited, _, _, plsum => (plsum, visited)
  | fuel + 1, visited, to_visit, depth, plsum =>
    if to_visit = ∅ then (plsum, visited)
    else
      bfsLoop g fuel (visited ∪ to_visit)
        ((to_visit.biUnion g.edges) \ (visited ∪ to_visit)) (depth + 1)
        (plsum + depth * to_visit.card)

/-- Per-origin body of `get_apl`: `visited = {n}; to_visit = graph["edges"][n];
depth, node_plsum = 1, 0; while to_visit: ...; return node_plsum`. -/
def node_plsum (g : Graph) (n : String) : Nat :=
  (bfsLoop g (g.nodes.length + 1) {n} (g.edges n) 1 0).1

/-- `get_apl(graph)` (identical in `pml.py` and `net.py`): the total of
`node_plsum` over all graph nodes. -/
def get_apl (g : Graph) : Nat :=
  (g.nodes.map (fun n => node_plsum g n)).sum

/-- Errors that `net.py`'s ASP path can raise: the `assert len(visited) ==
nnodes, "Graph is disconnected"` assertion, and Python's `ZeroDivisionError`. -/
inductive AspErr
  | disconnected
  | divByZero
deriving DecidableEq

/-- The `while current:` loop of `_calculate_asp_single_src` in `net.py`:

    while current:
        visited |= current
        destinations = set()
        for src in current:
            destinations |= graph.edges[src]
        destinations -= visited
        sum_ += len(destinations) * depth
        depth += 1
        current = destinations

Fuel is added exactly as for `bfsLoop`. -/
def aspLoop (g : Graph) : Nat → Finset String → Finset String → Nat → Nat →
    Nat × Finset String
  | 0, _, visited, sum_, _ => (sum_, visited)
  | fuel + 1, current, visited, sum_, depth =>
    if current = ∅ then (sum_, visited)
    else
      aspLoop g fuel
        ((current.biUnion g.edges) \ (visited ∪ current))
        (visited ∪ current)
        (sum_ + ((current.biUnion g.edges) \ (visited ∪ current)).card * depth)
        (depth + 1)

/-- `_calculate_asp_single_src(graph, src)` from `net.py`: runs the loop from
`current = {src}, visited = set(), sum_ = 0, depth = 1`, asserts full
reachability, then returns `sum_ / npaths` (Python 2 floor division). -/
def calculate_asp_single_src (g : Graph) (src : String) : Except AspErr Nat :=
  match aspLoop g (g.nodes.length + 1) {src} ∅ 0 1 with
  | (sum_, visited) =>
    if visited.card = g.nodes.length then
      if visited.card - 1 = 0 then .error .divByZero
      else .ok (sum_ / (visited.card - 1))
    else .error .disconnected

/-- Python list comprehension `[f(src) for src in nodes]` over a fallible
`f`: the first raised exception propagates, aborting the whole list. -/
def mapExcept (f : String → Except AspErr Nat) : List String →
    Except AspErr (List Nat)
  | [] => .ok []
  | a :: l =>
    match f a with
    | .error e => .error e
    | .ok v =>
      match mapExcept f l with
      | .error e => .error e
      | .ok vs => .ok (v :: vs)

/-- `calculate_asp(graph)` from `net.py`: the `mean` of the per-source values
(`mean` computes `float(sum(nums)) / len(nums)`, an exact rational here, and
raises `ZeroDivisionError` on an empty list). -/
def calculate_asp (g : Graph) : Except AspErr ℚ :=
  match mapExcept (calculate_asp_single_src g) g.nodes with
  | .error e => .error e
  | .ok asps =>
    if asps.length = 0 then .error .divByZero
    else .ok ((asps.sum : ℚ) / (asps.length : ℚ))

/-- `disable_nodes(graph, disabled)` from `pml.py`, with `disabled` a list
(Python's `n not in disabled` is list membership here):

    graph["nodes"] = [n for n in graph["nodes"] if n not in disabled]
    is_enabled = lambda n : n not in disabled
    new_edges[n] = set(filter(is_enabled, graph["edges"][n]))

The Python dict `new_edges` has keys exactly the surviving nodes; in the
total-function model the same filter is applied at every string, which agrees
on every key the programs look up. -/
def disable_nodes (g : Graph) (disabled : List String) : Graph :=
  { nodes := g.nodes.filter (fun n => decide (n ∉ disabled)),
    edges := fun n => (g.edges n).filter (fun x => x ∉ disabled) }

/-- Python's `needle in haystack` when `haystack` is a string: contiguous
substring containment. -/
def pyInStr (needle haystack : String) : Bool :=
  (List.range (haystack.toList.length + 1)).any
    (fun i => decide ((haystack.toList.drop i).take needle.toList.length = needle.toList))

/-- `disable_nodes` as invoked by `enable_nodes`, where the `disabled`
argument is a *string* (`" ".join(disabled)`), so Python's `n not in disabled`
is the substring test: the same source function at the other argument type
its duck-typed `in` admits. -/
def disable_nodes_str (g : Graph) (disabled : String) : Graph :=
  { nodes := g.nodes.filter (fun n => !pyInStr n disabled),
    edges := fun n => (g.edges n).filter (fun x => ¬ (pyInStr x disabled = true)) }

/-- `enable_nodes(graph, enabled)` from `pml.py`:

    disabled = [n for n in graph["nodes"] if n not in enabled]
    return disable_nodes(graph, " ".join(disabled))  -/
def enable_nodes (g : Graph) (enabled : List String) : Graph :=
  disable_nodes_str g
    (String.intercalate " " (g.nodes.filter (fun n => decide (n ∉ enabled))))

/-- `get_impact(graph, disabled)` from `pml.py`:

    n = len(graph["nodes"]); m = len(disabled)
    graph_mod = disable_nodes(graph, disabled)
    return get_apl(graph_mod) / float((n-m)*(n-m-1))

`none` models the `ZeroDivisionError` raised when `(n-m)*(n-m-1) == 0`. -/
def get_impact (g : Graph) (disabled : List String) : Option ℚ :=
  if ((g.nodes.length : ℤ) - disabled.length) *
      ((g.nodes.length : ℤ) - disabled.length - 1) = 0 then none
  else some ((get_apl (disable_nodes g disabled) : ℚ) /
    ((((g.nodes.length : ℤ) - disabled.length) *
      ((g.nodes.length : ℤ) - disabled.length - 1) : ℤ) : ℚ))

/-- The trial partition computed in `main` (`net.py` 101-106, Python 2 `/` is
floor division):

    trials_batch1 = trials / nworkers
    trials_batch2 = trials - trials_batch1 * (nworkers-1)
    trials_per_task = [trials_batch1] * (nworkers-1) + [trials_batch2]

Used only with `nworkers >= 1` (with 0 workers Python raises on the
division). -/
def trials_per_task (trials nworkers : Nat) : List Nat :=
  List.replicate (nworkers - 1) (trials / nworkers) ++
    [trials - trials / nworkers * (nworkers - 1)]

/-- A Python comprehension / `pool.map` over a fallible body: the first
raised exception aborts the whole construction, so no list is produced at
all (`none`); only if every call succeeds is the list of results returned. -/
def mapOption {α β : Type} (f : α → Option β) : List α → Option (List β)
  | [] => some []
  | a :: l =>
    match f a with
    | none => none
    | some v =>
      match mapOption f l with
      | none => none
      | some vs => some (v :: vs)

/-- `get_impact_list(file, trials, m, method)`: builds
`[get_impact_w() for _ in range(trials)]`; the strategy generator is
abstracted as the sequence `samples` of node subsets it yields.  A
`ZeroDivisionError` raised by any `get_impact` call propagates out of the
comprehension, so the worker returns no list at all (`none`). -/
def get_impact_list (g : Graph) (samples : Nat → List String) (trials : Nat) :
    Option (List ℚ) :=
  mapOption (fun k => get_impact g (samples k)) (List.range trials)

/-- The dispatcher in `main`: `pool.map(get_impact_list_kwargs, task_args)`
followed by `impact_list = sum(task_results, [])` — worker `i` runs
`trials_per_task[i]` trials against its own copy of the graph and sample
stream, and the per-worker result lists are concatenated in worker order.
An exception inside any worker aborts the entire dispatch (`none`): the
flattening only happens when every worker returned a list. -/
def run_impact_trials (g : Graph) (samples : Nat → Nat → List String)
    (trials nworkers : Nat) : Option (List ℚ) :=
  match mapOption (fun p => get_impact_list g (samples p.1) p.2)
      (trials_per_task trials nworkers).enum with
  | none => none
  | some task_results => some task_results.flatten

/-- One step of `get_psuedo_random_nodes`:
`inds = [(x+shift) % n for x in inds]`. -/
def shiftInds (n shift : Nat) (inds : List Nat) : List Nat :=
  inds.map (fun x => (x + shift) % n)

/-- The successive values of `inds` in `get_psuedo_random_nodes`: `inds0` is
the initial `sample(range(n), m)` draw and `shifts k` the `randrange(1, n)`
value drawn at step `k`. -/
def indsAfter (n : Nat) (inds0 : List Nat) (shifts : Nat → Nat) : Nat → List Nat
  | 0 => inds0
  | k + 1 => shiftInds n (shifts k) (indsAfter n inds0 shifts k)

/-- The `k`-th sample yielded by `get_psuedo_random_nodes` (`k` from 0): the
generator shifts once before each yield, so sample `k` reads the node list at
the indices `indsAfter (k+1)`. -/
def psuedoSample (g : Graph) (inds0 : List Nat) (shifts : Nat → Nat) (k : Nat) :
    List String :=
  (indsAfter g.nodes.length inds0 shifts (k + 1)).map (fun i => g.nodes.getD i "")

/-- A well-formed simple undirected graph: symmetric edge sets over the node
set, edges confined to the node set, no self-loops, distinct identifiers. -/
def GoodGraph (g : Graph) : Prop :=
  (∀ a ∈ g.nodeF, ∀ b ∈ g.nodeF, (b ∈ g.edges a ↔ a ∈ g.edges b)) ∧
  EdgesClosed g ∧ (∀ a ∈ g.nodeF, a ∉ g.edges a) ∧ g.nodes.Nodup

instance (g : Graph) : Decidable (GoodGraph g) := by
  unfold GoodGraph
  infer_instance

/-- The three-node path graph a–b–c of the spec's worked examples. -/
def pathABC : Graph :=
  { nodes := ["a", "b", "c"],
    edges := fun s =>
      if s = "a" then {"b"}
      else if s = "b" then {"a", "c"}
      else if s = "c" then {"b"}
      else ∅ }

/-- A single isolated node. -/
def oneNodeG : Graph := { nodes := ["a"], edges := fun _ => ∅ }

/-- The graph with no nodes at all. -/
def emptyNodesG : Graph := { nodes := [], edges := fun _ => ∅ }

/-- Two isolated nodes: two connected components. -/
def twoIsolatedG : Graph := { nodes := ["a", "b"], edges := fun _ => ∅ }

/-- The two-node path graph a–b. -/
def pathAB : Graph :=
  { nodes := ["a", "b"],
    edges := fun s => if s = "a" then {"b"} else if s = "b" then {"a"} else ∅ }

/-- An edgeless graph whose node identifiers overlap as substrings. -/
def overlapG : Graph := { nodes := ["b", "ab"], edges := fun _ => ∅ }

theorem self_mem_ball (g : Graph) (o : String) (d : Nat) : o ∈ ball g o d := by
  induction d with
  | zero => simp [ball]
  | succ d ih => simp [ball]; exact Or.inl ih

theorem ball_subset_succ (g : Graph) (o : String) (d : Nat) :
    ball g o d ⊆ ball g o (d + 1) := by
  simp [ball]

theorem ball_mono (g : Graph) (o : String) {d e : Nat} (h : d ≤ e) :
    ball g o d ⊆ ball g o e := by
  induction e with
  | zero => simp [Nat.le_zero.mp h]
  | succ e ih =>
    rcases Nat.lt_or_ge d (e + 1) with h' | h'
    · exact (ih (Nat.lt_succ_iff.mp h')).trans (ball_subset_succ g o e)
    · have : d = e + 1 := Nat.le_antisymm h h'
      simp [this]

theorem HasWalk.mem_ball {g : Graph} {o v : String} {n : Nat}
    (h : HasWalk g o v n) : v ∈ ball g o n := by
  induction h with
  | nil => simp [ball]
  | snoc hw he ih =>
    simp only [ball, Finset.mem_union, Finset.mem_biUnion]
    exact Or.inr ⟨_, ih, he⟩

theorem mem_ball_iff {g : Graph} {o : String} {d : Nat} {v : String} :
    v ∈ ball g o d ↔ ∃ k ≤ d, HasWalk g o v k := by
  constructor
  · intro hv
    induction d generalizing v with
    | zero =>
      simp [ball] at hv
      exact ⟨0, Nat.le_refl 0, hv ▸ HasWalk.nil⟩
    | succ d ih =>
      simp only [ball, Finset.mem_union, Finset.mem_biUnion] at hv
      rcases hv with hv | ⟨m, hm, he⟩
      · obtain ⟨k, hk, hw⟩ := ih hv
        exact ⟨k, hk.trans (Nat.le_succ d), hw⟩
      · obtain ⟨k, hk, hw⟩ := ih hm
        exact ⟨k + 1, Nat.succ_le_succ hk, hw.snoc he⟩
  · rintro ⟨k, hk, hw⟩
    exact ball_mono g o hk hw.mem_ball

theorem ball_subset_nodeF {g : Graph} (hc : EdgesClosed g) {o : String}
    (ho : o ∈ g.nodeF) (d : Nat) : ball g o d ⊆ g.nodeF := by
  induction d with
  | zero => simpa [ball]
  | succ d ih =>
    simp only [ball]
    intro x hx
    rcases Finset.mem_union.mp hx with hx | hx
    · exact ih hx
    · obtain ⟨m, hm, hx⟩ := Finset.mem_biUnion.mp hx
      exact hc m (ih hm) hx

theorem ball_stab {g : Graph} {o : String} {d : Nat}
    (h : ball g o (d + 1) = ball g o d) :
    ∀ e, d ≤ e → ball g o e = ball g o d := by
  intro e he
  induction e with
  | zero => simp [Nat.le_zero.mp he]
  | succ e ih =>
    rcases Nat.lt_or_ge d (e + 1) with h' | h'
    · have he' := ih (Nat.lt_succ_iff.mp h')
      calc ball g o (e + 1) = ball g o e ∪ (ball g o e).biUnion g.edges := rfl
        _ = ball g o d ∪ (ball g o d).biUnion g.edges := by rw [he']
        _ = ball g o (d + 1) := rfl
        _ = ball g o d := h
    · simp [Nat.le_antisymm he h']

theorem card_ball_of_ne {g : Graph} {o : String} :
    ∀ k, ball g o (k + 1) ≠ ball g o k → k + 2 ≤ (ball g o (k + 1)).card := by
  intro k
  induction k with
  | zero =>
    intro h
    have hsub : ball g o 0 ⊆ ball g o 1 := ball_subset_succ g o 0
    have hlt : (ball g o 0).card < (ball g o 1).card :=
      Finset.card_lt_card (Finset.ssubset_iff_subset_ne.mpr ⟨hsub, fun he => h he.symm⟩)
    simpa [ball] using hlt
  | succ k ih =>
    intro h
    have hne : ball g o (k + 1) ≠ ball g o k := by
      intro he
      exact h (ball_stab he (k + 2) (by omega) ▸ (ball_stab he (k + 1) (by omega)).symm)
    have h1 := ih hne
    have hsub : ball g o (k + 1) ⊆ ball g o (k + 1 + 1) := ball_subset_succ g o (k + 1)
    have hlt : (ball g o (k + 1)).card < (ball g o (k + 1 + 1)).card :=
      Finset.card_lt_card (Finset.ssubset_iff_subset_ne.mpr ⟨hsub, fun he => h he.symm⟩)
    omega

theorem ball_stab_length {g : Graph} (hc : EdgesClosed g) {o : String}
    (ho : o ∈ g.nodeF) : ball g o (g.nodes.length + 1) = ball g o g.nodes.length := by
  by_contra h
  have h1 := card_ball_of_ne g.nodes.length h
  have h2 : (ball g o (g.nodes.length + 1)).card ≤ g.nodeF.card :=
    Finset.card_le_card (ball_subset_nodeF hc ho (g.nodes.length + 1))
  have h3 : g.nodeF.card ≤ g.nodes.length := g.nodes.toFinset_card_le
  omega

theorem ball_subset_reach {g : Graph} (hc : EdgesClosed g) {o : String}
    (ho : o ∈ g.nodeF) (d : Nat) : ball g o d ⊆ reachSet g o := by
  rcases le_or_lt d g.nodes.length with h | h
  · exact ball_mono g o h
  · have := ball_stab (ball_stab_length hc ho) d (by omega)
    rw [reachSet, this]

theorem stab_reach {g : Graph} (hc : EdgesClosed g) {o : String} (ho : o ∈ g.nodeF)
    {k : Nat} (h : ball g o (k + 1) = ball g o k) : reachSet g o = ball g o k := by
  rcases le_or_lt k g.nodes.length with h' | h'
  · exact ball_stab h g.nodes.length h'
  · have h2 := ball_stab (ball_stab_length hc ho) k (by omega)
    rw [reachSet, ← h2]

theorem mem_reach_iff {g : Graph} (hc : EdgesClosed g) {o : String}
    (ho : o ∈ g.nodeF) {v : String} :
    v ∈ reachSet g o ↔ ∃ k, HasWalk g o v k := by
  constructor
  · intro hv
    obtain ⟨k, _, hw⟩ := mem_ball_iff.mp hv
    exact ⟨k, hw⟩
  · rintro ⟨k, hw⟩
    exact ball_subset_reach hc ho k hw.mem_ball

/-- The next breadth-first frontier: edges out of the current frontier, minus
everything already visited. -/
theorem frontier_step (g : Graph) (o : String) (k : Nat) :
    ((ball g o (k + 1) \ ball g o k).biUnion g.edges) \ ball g o (k + 1) =
      ball g o (k + 2) \ ball g o (k + 1) := by
  ext x
  simp only [Finset.mem_sdiff, Finset.mem_biUnion]
  constructor
  · rintro ⟨⟨m, hm, hx⟩, hnx⟩
    refine ⟨?_, hnx⟩
    have : x ∈ (ball g o (k + 1)).biUnion g.edges :=
      Finset.mem_biUnion.mpr ⟨m, (Finset.mem_sdiff.mp (Finset.mem_sdiff.mpr hm)).1, hx⟩
    exact Finset.mem_union.mpr (Or.inr this)
  · rintro ⟨hx, hnx⟩
    refine ⟨?_, hnx⟩
    rcases Finset.mem_union.mp hx with hx | hx
    · exact absurd hx hnx
    · obtain ⟨m, hm, hx⟩ := Finset.mem_biUnion.mp hx
      have hmk : m ∉ ball g o k := by
        intro hmk
        exact hnx (Finset.mem_union.mpr (Or.inr (Finset.mem_biUnion.mpr ⟨m, hmk, hx⟩)))
      exact ⟨m, ⟨hm, hmk⟩, hx⟩

theorem find?_range_eq_some {p : Nat → Bool} {N d : Nat} (hd : d < N)
    (hp : p d = true) (hmin : ∀ j, j < d → p j = false) :
    (List.range N).find? p = some d := by
  induction N with
  | zero => omega
  | succ N ih =>
    rw [List.range_succ, List.find?_append]
    rcases Nat.lt_or_ge d N with h | h
    · rw [ih h]
      rfl
    · have hdN : N = d := by omega
      subst hdN
      have hnone : (List.range N).find? p = none := by
        rw [List.find?_eq_none]
        intro x hx
        simp [hmin x (List.mem_range.mp hx)]
      rw [hnone]
      simp [Option.or, List.find?, hp]

theorem hopDist_eq {g : Graph} {o v : String} {d : Nat}
    (hd : d ≤ g.nodes.length) (h1 : v ∈ ball g o d)
    (h2 : ∀ j, j < d → v ∉ ball g o j) : hopDist g o v = d := by
  unfold hopDist
  rw [@find?_range_eq_some (fun j => decide (v ∈ ball g o j)) (g.nodes.length + 1) d
    (by omega) (by simpa using h1) (fun j hj => by simpa using h2 j hj)]

theorem hopDist_self (g : Graph) (o : String) : hopDist g o o = 0 :=
  hopDist_eq (Nat.zero_le _) (self_mem_ball g o 0) (fun j hj => by omega)

theorem hopDist_sphere {g : Graph} {o v : String} {d : Nat}
    (hd : d + 1 ≤ g.nodes.length) (h1 : v ∈ ball g o (d + 1))
    (h2 : v ∉ ball g o d) : hopDist g o v = d + 1 := by
  apply hopDist_eq hd h1
  intro j hj hv
  exact h2 (ball_mono g o (Nat.lt_succ_iff.mp hj) hv)

/-- Summing hop distances over a breadth-first sphere: every vertex first
discovered at depth `d + 1` has hop distance `d + 1`. -/
theorem sphere_sum {g : Graph} (hc : EdgesClosed g) {o : String}
    (ho : o ∈ g.nodeF) (d : Nat) :
    ∑ v ∈ ball g o (d + 1) \ ball g o d, hopDist g o v =
      (d + 1) * (ball g o (d + 1) \ ball g o d).card := by
  rcases Finset.eq_empty_or_nonempty (ball g o (d + 1) \ ball g o d) with he | hne
  · simp [he]
  · have hball : ball g o (d + 1) ≠ ball g o d := by
      intro h
      obtain ⟨x, hx⟩ := hne
      rw [h] at hx
      exact (Finset.mem_sdiff.mp hx).2 (Finset.mem_sdiff.mp hx).1
    have hcard := card_ball_of_ne d hball
    have hsub : (ball g o (d + 1)).card ≤ g.nodeF.card :=
      Finset.card_le_card (ball_subset_nodeF hc ho (d + 1))
    have hlen : g.nodeF.card ≤ g.nodes.length := g.nodes.toFinset_card_le
    have hbound : d + 1 ≤ g.nodes.length := by omega
    rw [Finset.sum_congr rfl (fun v hv => hopDist_sphere hbound
      (Finset.mem_sdiff.mp hv).1 (Finset.mem_sdiff.mp hv).2)]
    rw [Finset.sum_const, smul_eq_mul, Nat.mul_comm]

/-- Peeling one sphere off the set of reachable vertices beyond `ball d`. -/
theorem sum_reach_split {g : Graph} (hc : EdgesClosed g) {o : String}
    (ho : o ∈ g.nodeF) (d : Nat) (f : String → Nat) :
    ∑ v ∈ reachSet g o \ ball g o d, f v =
      (∑ v ∈ ball g o (d + 1) \ ball g o d, f v) +
        ∑ v ∈ reachSet g o \ ball g o (d + 1), f v := by
  have hsplit : reachSet g o \ ball g o d =
      (ball g o (d + 1) \ ball g o d) ∪ (reachSet g o \ ball g o (d + 1)) := by
    ext x
    simp only [Finset.mem_sdiff, Finset.mem_union]
    constructor
    · rintro ⟨hr, hnd⟩
      by_cases hx : x ∈ ball g o (d + 1)
      · exact Or.inl ⟨hx, hnd⟩
      · exact Or.inr ⟨hr, hx⟩
    · rintro (⟨hx, hnd⟩ | ⟨hr, hnd1⟩)
      · exact ⟨ball_subset_reach hc ho (d + 1) hx, hnd⟩
      · exact ⟨hr, fun hx => hnd1 (ball_subset_succ g o d hx)⟩
  have hdisj : Disjoint (ball g o (d + 1) \ ball g o d)
      (reachSet g o \ ball g o (d + 1)) := by
    rw [Finset.disjoint_left]
    intro x hx hx'
    exact (Finset.mem_sdiff.mp hx').2 (Finset.mem_sdiff.mp hx).1
  rw [hsplit, Finset.sum_union hdisj]

theorem sdiff_empty_iff {g : Graph} {o : String} {k : Nat} :
    ball g o (k + 1) \ ball g o k = ∅ ↔ ball g o (k + 1) = ball g o k := by
  rw [Finset.sdiff_eq_empty_iff_subset]
  exact ⟨fun h => Finset.Subset.antisymm h (ball_subset_succ g o k),
    fun h => h.le⟩

theorem bfsLoop_spec {g : Graph} (hc : EdgesClosed g) {o : String}
    (ho : o ∈ g.nodeF) :
    ∀ fuel k s, ball g o (k + fuel + 1) = ball g o (k + fuel) →
      bfsLoop g fuel (ball g o k) (ball g o (k + 1) \ ball g o k) (k + 1) s =
        (s + ∑ v ∈ reachSet g o \ ball g o k, hopDist g o v, reachSet g o) := by
  intro fuel
  induction fuel with
  | zero =>
    intro k s hstab
    have h0 : ball g o (k + 1) = ball g o k := by simpa using hstab
    have hr := stab_reach hc ho h0
    rw [bfsLoop, hr]
    simp
  | succ fuel ih =>
    intro k s hstab
    rw [bfsLoop]
    by_cases hemp : ball g o (k + 1) \ ball g o k = ∅
    · rw [if_pos hemp]
      have hr := stab_reach hc ho (sdiff_empty_iff.mp hemp)
      rw [hr]
      simp
    · rw [if_neg hemp]
      have hcup : ball g o k ∪ (ball g o (k + 1) \ ball g o k) = ball g o (k + 1) :=
        Finset.union_sdiff_of_subset (ball_subset_succ g o k)
      rw [hcup, frontier_step g o k]
      have hstab' : ball g o (k + 1 + fuel + 1) = ball g o (k + 1 + fuel) := by
        have e1 : k + 1 + fuel + 1 = k + (fuel + 1) + 1 := by omega
        have e2 : k + 1 + fuel = k + (fuel + 1) := by omega
        rw [e1, e2]
        exact hstab
      have := ih (k + 1) (s + (k + 1) * (ball g o (k + 1) \ ball g o k).card) hstab'
      have e3 : k + 1 + 1 = k + 2 := by omega
      rw [e3] at this
      rw [this]
      have hsum := sum_reach_split hc ho k (hopDist g o)
      rw [hsum, sphere_sum hc ho k]
      ring_nf

theorem node_plsum_eq {g : Graph} (hc : EdgesClosed g) {o : String}
    (ho : o ∈ g.nodeF) (hs : o ∉ g.edges o) :
    node_plsum g o = ∑ v ∈ reachSet g o, hopDist g o v := by
  have h0 : ball g o 0 = {o} := rfl
  have h1 : ball g o 1 \ ball g o 0 = g.edges o := by
    ext x
    simp only [ball, Finset.mem_sdiff, Finset.mem_union, Finset.mem_singleton,
      Finset.mem_biUnion]
    constructor
    · rintro ⟨hx | ⟨m, hm, hx⟩, hnx⟩
      · exact absurd hx hnx
      · exact hm ▸ hx
    · intro hx
      exact ⟨Or.inr ⟨o, rfl, hx⟩, fun he => hs (he ▸ hx)⟩
  have hbs := ball_stab_length hc ho
  have hstab : ball g o (0 + (g.nodes.length + 1) + 1) =
      ball g o (0 + (g.nodes.length + 1)) := by
    have h2 : ball g o (g.nodes.length + 1 + 1) = ball g o g.nodes.length :=
      ball_stab hbs (g.nodes.length + 1 + 1) (by omega)
    simp only [Nat.zero_add]
    rw [h2, hbs]
  have hmain := bfsLoop_spec hc ho (g.nodes.length + 1) 0 0 hstab
  simp only [Nat.zero_add] at hmain
  unfold node_plsum
  rw [show ({o} : Finset String) = ball g o 0 from rfl, ← h1, hmain]
  have hsplit : reachSet g o \ ball g o 0 = (reachSet g o).erase o := by
    rw [show ball g o 0 = ({o} : Finset String) from rfl,
      Finset.sdiff_singleton_eq_erase]
  have ho' : o ∈ reachSet g o := self_mem_ball g o _
  have hadd := Finset.add_sum_erase (reachSet g o) (hopDist g o) ho'
  rw [hopDist_self] at hadd
  simp [hsplit]
  simpa using hadd

theorem aspLoop_spec {g : Graph} (hc : EdgesClosed g) {o : String}
    (ho : o ∈ g.nodeF) :
    ∀ fuel k s, ball g o (k + fuel + 1) = ball g o (k + fuel) →
      aspLoop g fuel (ball g o (k + 1) \ ball g o k) (ball g o k) s (k + 2) =
        (s + ∑ v ∈ reachSet g o \ ball g o (k + 1), hopDist g o v, reachSet g o) := by
  intro fuel
  induction fuel with
  | zero =>
    intro k s hstab
    have h0 : ball g o (k + 1) = ball g o k := by simpa using hstab
    have hr := stab_reach hc ho h0
    rw [aspLoop, hr, h0]
    simp
  | succ fuel ih =>
    intro k s hstab
    rw [aspLoop]
    by_cases hemp : ball g o (k + 1) \ ball g o k = ∅
    · rw [if_pos hemp]
      have h0 := sdiff_empty_iff.mp hemp
      have hr := stab_reach hc ho h0
      rw [hr, h0]
      simp
    · rw [if_neg hemp]
      have hcup : ball g o k ∪ (ball g o (k + 1) \ ball g o k) = ball g o (k + 1) :=
        Finset.union_sdiff_of_subset (ball_subset_succ g o k)
      rw [hcup, frontier_step g o k]
      have hstab' : ball g o (k + 1 + fuel + 1) = ball g o (k + 1 + fuel) := by
        have e1 : k + 1 + fuel + 1 = k + (fuel + 1) + 1 := by omega
        have e2 : k + 1 + fuel = k + (fuel + 1) := by omega
        rw [e1, e2]
        exact hstab
      have hrec := ih (k + 1)
        (s + (ball g o (k + 2) \ ball g o (k + 1)).card * (k + 2)) hstab'
      have e3 : k + 1 + 1 = k + 2 := by omega
      rw [e3] at hrec
      rw [hrec]
      have hsum := sum_reach_split hc ho (k + 1) (hopDist g o)
      have e4 : k + 1 + 1 = k + 2 := by omega
      rw [e4] at hsum
      rw [hsum, sphere_sum hc ho (k + 1)]
      rw [e4]
      ring_nf

/-- Running the single-source loop from its actual initial state. -/
theorem aspLoop_run {g : Graph} (hc : EdgesClosed g) {src : String}
    (hsrc : src ∈ g.nodeF) :
    aspLoop g (g.nodes.length + 1) {src} ∅ 0 1 =
      (∑ v ∈ reachSet g src, hopDist g src v, reachSet g src) := by
  rw [aspLoop]
  rw [if_neg (by simp : ({src} : Finset String) ≠ ∅)]
  have hu : (∅ : Finset String) ∪ {src} = ball g src 0 := by
    simp [ball]
  have hdest : (({src} : Finset String).biUnion g.edges) \ ((∅ : Finset String) ∪ {src}) =
      ball g src 1 \ ball g src 0 := by
    rw [Finset.empty_union]
    have b0 : ball g src 0 = {src} := rfl
    have b1 : ball g src 1 = {src} ∪ ({src} : Finset String).biUnion g.edges := rfl
    rw [b0, b1]
    ext x
    simp only [Finset.mem_sdiff, Finset.mem_union, Finset.mem_singleton]
    constructor
    · rintro ⟨hx, hnx⟩
      exact ⟨Or.inr hx, hnx⟩
    · rintro ⟨hx | hx, hnx⟩
      · exact absurd hx hnx
      · exact ⟨hx, hnx⟩
  rw [hdest, hu]
  have hstab : ball g src (0 + g.nodes.length + 1) = ball g src (0 + g.nodes.length) := by
    simpa using ball_stab_length hc hsrc
  have := aspLoop_spec hc hsrc g.nodes.length 0
    (0 + (ball g src 1 \ ball g src 0).card * 1) hstab
  simp only [Nat.zero_add] at this ⊢
  rw [show (1 : Nat) + 1 = 0 + 2 from rfl, this]
  have hsum := sum_reach_split hc hsrc 0 (hopDist g src)
  have hs0 := sphere_sum hc hsrc 0
  have hsplit : reachSet g src \ ball g src 0 = (reachSet g src).erase src := by
    rw [show ball g src 0 = ({src} : Finset String) from rfl,
      Finset.sdiff_singleton_eq_erase]
  have hsrc' : src ∈ reachSet g src := self_mem_ball g src _
  have hadd := Finset.add_sum_erase (reachSet g src) (hopDist g src) hsrc'
  rw [hopDist_self] at hadd
  rw [hsplit] at hsum
  have : (ball g src 1 \ ball g src 0).card * 1 +
      ∑ v ∈ reachSet g src \ ball g src 1, hopDist g src v =
      ∑ v ∈ reachSet g src, hopDist g src v := by
    rw [← hadd]
    rw [Nat.zero_add, hsum, hs0]
    ring_nf
  rw [this]

theorem nodeF_card_eq {g : Graph} (hnd : g.nodes.Nodup) :
    g.nodeF.card = g.nodes.length :=
  List.toFinset_card_of_nodup hnd

theorem reach_card_iff {g : Graph} (hc : EdgesClosed g) {src : String}
    (hsrc : src ∈ g.nodeF) (hnd : g.nodes.Nodup) :
    (reachSet g src).card = g.nodes.length ↔ reachSet g src = g.nodeF := by
  constructor
  · intro h
    have hsub : reachSet g src ⊆ g.nodeF := ball_subset_nodeF hc hsrc _
    have hcard : g.nodeF.card ≤ (reachSet g src).card := by
      rw [nodeF_card_eq hnd, h]
    exact Finset.eq_of_subset_of_card_le hsub hcard
  · intro h
    rw [h, nodeF_card_eq hnd]

theorem calculate_asp_single_src_eq {g : Graph} (hc : EdgesClosed g)
    {src : String} (hsrc : src ∈ g.nodeF) (hnd : g.nodes.Nodup) :
    calculate_asp_single_src g src =
      if reachSet g src = g.nodeF then
        (if g.nodes.length = 1 then Except.error AspErr.divByZero
         else Except.ok ((∑ v ∈ reachSet g src, hopDist g src v) /
           (g.nodes.length - 1)))
      else Except.error AspErr.disconnected := by
  unfold calculate_asp_single_src
  rw [aspLoop_run hc hsrc]
  show (if (reachSet g src).card = g.nodes.length then
      if (reachSet g src).card - 1 = 0 then Except.error AspErr.divByZero
      else Except.ok ((∑ v ∈ reachSet g src, hopDist g src v) /
        ((reachSet g src).card - 1))
    else Except.error AspErr.disconnected) = _
  have hlen1 : 1 ≤ g.nodes.length := by
    have : src ∈ g.nodes := List.mem_toFinset.mp hsrc
    exact List.length_pos.mpr (List.ne_nil_of_mem this)
  by_cases hre : reachSet g src = g.nodeF
  · have hcard : (reachSet g src).card = g.nodes.length :=
      (reach_card_iff hc hsrc hnd).mpr hre
    rw [if_pos hcard, if_pos hre, hcard]
    by_cases h1 : g.nodes.length = 1
    · rw [if_pos (by omega), if_pos h1]
    · rw [if_neg (by omega), if_neg h1]
  · rw [if_neg (fun h => hre ((reach_card_iff hc hsrc hnd).mp h)), if_neg hre]

theorem mapExcept_cons_error {f : String → Except AspErr Nat} {a : String}
    {l : List String} {e : AspErr} (h : f a = .error e) :
    mapExcept f (a :: l) = .error e := by
  rw [mapExcept, h]

theorem mapExcept_cons_ok_error {f : String → Except AspErr Nat} {a : String}
    {l : List String} {v : Nat} {e : AspErr} (h : f a = .ok v)
    (h2 : mapExcept f l = .error e) : mapExcept f (a :: l) = .error e := by
  rw [mapExcept, h, h2]

theorem mapExcept_cons_ok_ok {f : String → Except AspErr Nat} {a : String}
    {l : List String} {v : Nat} {vs : List Nat} (h : f a = .ok v)
    (h2 : mapExcept f l = .ok vs) : mapExcept f (a :: l) = .ok (v :: vs) := by
  rw [mapExcept, h, h2]

theorem single_src_disc_iff_aux {g : Graph} (hc : EdgesClosed g) {src : String}
    (hsrc : src ∈ g.nodeF) (hnd : g.nodes.Nodup) :
    calculate_asp_single_src g src = Except.error AspErr.disconnected ↔
      reachSet g src ≠ g.nodeF := by
  rw [calculate_asp_single_src_eq hc hsrc hnd]
  by_cases hre : reachSet g src = g.nodeF
  · rw [if_pos hre]
    by_cases h1 : g.nodes.length = 1 <;> simp [h1, hre]
  · simp [hre]

theorem mapExcept_disc_iff {g : Graph} (hc : EdgesClosed g) (hnd : g.nodes.Nodup) :
    ∀ l : List String, (∀ s ∈ l, s ∈ g.nodeF) →
      (mapExcept (calculate_asp_single_src g) l = Except.error AspErr.disconnected ↔
        ∃ s ∈ l, reachSet g s ≠ g.nodeF) := by
  intro l
  induction l with
  | nil => simp [mapExcept]
  | cons a l ih =>
    intro hmem
    have ha : a ∈ g.nodeF := hmem a (List.mem_cons_self a l)
    have hl : ∀ s ∈ l, s ∈ g.nodeF := fun s hs => hmem s (List.mem_cons_of_mem a hs)
    by_cases hra : reachSet g a = g.nodeF
    · by_cases h1 : g.nodes.length = 1
      · have hdiv : calculate_asp_single_src g a = Except.error AspErr.divByZero := by
          rw [calculate_asp_single_src_eq hc ha hnd, if_pos hra, if_pos h1]
        rw [mapExcept_cons_error hdiv]
        constructor
        · intro h
          exact absurd h (by simp)
        · rintro ⟨s, hs, hne⟩
          obtain ⟨x, hx⟩ := List.length_eq_one.mp h1
          have hsF : s ∈ g.nodeF := hmem s hs
          have haF : a ∈ g.nodeF := ha
          rw [Graph.nodeF, hx] at hsF haF
          simp at hsF haF
          exact (hne (hsF ▸ haF ▸ hra)).elim
      · have hok : calculate_asp_single_src g a = Except.ok
            ((∑ v ∈ reachSet g a, hopDist g a v) / (g.nodes.length - 1)) := by
          rw [calculate_asp_single_src_eq hc ha hnd, if_pos hra, if_neg h1]
        rcases hmc : mapExcept (calculate_asp_single_src g) l with e | vs
        · rw [mapExcept_cons_ok_error hok hmc]
          have hiff := ih hl
          rw [hmc] at hiff
          constructor
          · intro h
            obtain ⟨s, hs, hne⟩ := hiff.mp h
            exact ⟨s, List.mem_cons_of_mem a hs, hne⟩
          · rintro ⟨s, hs, hne⟩
            rcases List.mem_cons.mp hs with rfl | hs
            · exact absurd hra hne
            · exact hiff.mpr ⟨s, hs, hne⟩
        · rw [mapExcept_cons_ok_ok hok hmc]
          have hiff := ih hl
          rw [hmc] at hiff
          constructor
          · intro h
            exact absurd h (by simp)
          · rintro ⟨s, hs, hne⟩
            rcases List.mem_cons.mp hs with rfl | hs
            · exact absurd hra hne
            · exact absurd (hiff.mpr ⟨s, hs, hne⟩) (by simp)
    · have hdisc : calculate_asp_single_src g a = Except.error AspErr.disconnected :=
        (single_src_disc_iff_aux hc ha hnd).mpr hra
      rw [mapExcept_cons_error hdisc]
      constructor
      · intro h
        exact ⟨a, List.mem_cons_self a l, hra⟩
      · intro h
        rfl

theorem calculate_asp_of_error {g : Graph} {e : AspErr}
    (h : mapExcept (calculate_asp_single_src g) g.nodes = .error e) :
    calculate_asp g = .error e := by
  rw [calculate_asp, h]

theorem calculate_asp_of_ok {g : Graph} {asps : List Nat}
    (h : mapExcept (calculate_asp_single_src g) g.nodes = .ok asps) :
    calculate_asp g = if asps.length = 0 then Except.error AspErr.divByZero
      else Except.ok ((asps.sum : ℚ) / (asps.length : ℚ)) := by
  rw [calculate_asp, h]

theorem calculate_asp_disc_iff {g : Graph} (hc : EdgesClosed g)
    (hnd : g.nodes.Nodup) :
    calculate_asp g = Except.error AspErr.disconnected ↔
      ∃ s ∈ g.nodes, reachSet g s ≠ g.nodeF := by
  have hmem : ∀ s ∈ g.nodes, s ∈ g.nodeF := fun s hs => List.mem_toFinset.mpr hs
  have hiff := mapExcept_disc_iff hc hnd g.nodes hmem
  rcases hmc : mapExcept (calculate_asp_single_src g) g.nodes with e | vs
  · rw [calculate_asp_of_error hmc]
    rw [hmc] at hiff
    simp only [Except.error.injEq] at hiff ⊢
    exact hiff
  · rw [calculate_asp_of_ok hmc]
    rw [hmc] at hiff
    constructor
    · intro h
      by_cases hv : vs.length = 0
      · rw [if_pos hv] at h
        exact absurd h (by simp)
      · rw [if_neg hv] at h
        exact absurd h (by simp)
    · intro hex
      exact absurd (hiff.mpr hex) (by simp)

theorem calculate_asp_one_node {g : Graph} (hc : EdgesClosed g)
    (hnd : g.nodes.Nodup) (h1 : g.nodes.length = 1) :
    calculate_asp g = Except.error AspErr.divByZero := by
  obtain ⟨x, hx⟩ := List.length_eq_one.mp h1
  have hxF : x ∈ g.nodeF := by
    rw [Graph.nodeF, hx]
    simp
  have hreach : reachSet g x = g.nodeF := by
    apply Finset.eq_of_subset_of_card_le (ball_subset_nodeF hc hxF _)
    have hmem : x ∈ reachSet g x := self_mem_ball g x _
    have hpos : 1 ≤ (reachSet g x).card := Finset.card_pos.mpr ⟨x, hmem⟩
    rw [nodeF_card_eq hnd, h1]
    exact Finset.card_pos.mpr ⟨x, self_mem_ball g x 1⟩
  have hdiv : calculate_asp_single_src g x = Except.error AspErr.divByZero := by
    rw [calculate_asp_single_src_eq hc hxF hnd, if_pos hreach, if_pos h1]
  have hmc : mapExcept (calculate_asp_single_src g) g.nodes =
      Except.error AspErr.divByZero := by
    rw [hx]
    exact mapExcept_cons_error hdiv
  exact calculate_asp_of_error hmc

theorem calculate_asp_empty {g : Graph} (h : g.nodes = []) :
    calculate_asp g = Except.error AspErr.divByZero := by
  have hmc : mapExcept (calculate_asp_single_src g) g.nodes = Except.ok [] := by
    rw [h]
    rfl
  rw [calculate_asp_of_ok hmc]
  simp

theorem mem_disable_nodeF {g : Graph} {disabled : List String} {x : String} :
    x ∈ (disable_nodes g disabled).nodeF ↔ x ∈ g.nodeF ∧ x ∉ disabled := by
  simp [disable_nodes, Graph.nodeF, List.mem_filter]

theorem mem_disable_edges {g : Graph} {disabled : List String} {n x : String} :
    x ∈ (disable_nodes g disabled).edges n ↔ x ∈ g.edges n ∧ x ∉ disabled := by
  simp [disable_nodes]

/-- C1: for every finite simple undirected graph (symmetric edge sets over
the node set, no self-loops, edges confined to declared nodes, distinct node
identifiers) and every origin node, the frontier-expansion sum `node_plsum`
computed inside `get_apl` equals the sum, over all nodes reachable from the
origin, of the hop distance from the origin; consequently `get_apl` equals
the sum of shortest-path distances over all ordered reachable pairs, and on
the path graph a–b–c it returns 8. -/
theorem claim1_get_apl_total_path_length :
    (∀ g : Graph, GoodGraph g →
      (∀ o ∈ g.nodes, node_plsum g o = ∑ v ∈ reachSet g o, hopDist g o v) ∧
      get_apl g = ∑ o ∈ g.nodeF, ∑ v ∈ reachSet g o, hopDist g o v) ∧
    get_apl pathABC = 8 := by
  constructor
  · intro g hg
    obtain ⟨hsym, hc, hloop, hnd⟩ := hg
    constructor
    · intro o ho
      exact node_plsum_eq hc (List.mem_toFinset.mpr ho)
        (hloop o (List.mem_toFinset.mpr ho))
    · have h1 : g.nodeF.sum (fun o => node_plsum g o) =
          (g.nodes.map (fun o => node_plsum g o)).sum :=
        List.sum_toFinset _ hnd
      unfold get_apl
      rw [← h1]
      apply Finset.sum_congr rfl
      intro o ho
      exact node_plsum_eq hc ho (hloop o ho)
  · decide

/-- Witness for C1 at the path graph a–b–c with origin "a". -/
theorem claim1_witness :
    GoodGraph pathABC ∧
      node_plsum pathABC "a" = ∑ v ∈ reachSet pathABC "a", hopDist pathABC "a" v :=
  ⟨by decide,
    (claim1_get_apl_total_path_length.1 pathABC (by decide)).1 "a" (by decide)⟩

/-- C2 (code bug): Python 2 `/` on ints truncates, so
`_calculate_asp_single_src` returns `sum_ / npaths` floored.  On the path
graph a–b–c the per-source values are 1, 1, 1 (not 1.5, 1.0, 1.5) and
`calculate_asp` returns 1, not the exact-mean value 4/3 the claim states. -/
theorem claim2_calculate_asp_truncates :
    calculate_asp pathABC = Except.ok 1 ∧ ((1 : ℚ) ≠ 4 / 3) := by
  constructor
  · have h1 : mapExcept (calculate_asp_single_src pathABC) pathABC.nodes =
        Except.ok [1, 1, 1] := rfl
    rw [calculate_asp_of_ok h1]
    norm_num
  · norm_num

/-- C3 counterexample: on the two-node path graph a–b with {"b"} disabled we
have m = 1 < 2 = n, yet `get_impact` raises `ZeroDivisionError` (the
denominator (n−m)·(n−m−1) = 1·0 is zero) instead of returning a value. -/
theorem claim3_counterexample :
    (["b"] : List String).length < pathAB.nodes.length ∧
      get_impact pathAB ["b"] = none := by
  constructor
  · decide
  · decide

/-- C3 (amended): whenever at least two nodes survive (m ≤ n − 2, rather
than m < n as claimed: at m = n − 1 the denominator is zero and the call
fails), `get_impact` returns exactly
`get_apl(reduced) / ((n−m)·(n−m−1))`; on the 3-node path a–b–c with {"b"}
disabled the reduced graph has zero edges and the impact is 0. -/
theorem claim3_impact_quotient :
    (∀ (g : Graph) (disabled : List String),
      disabled.length + 2 ≤ g.nodes.length →
      get_impact g disabled = some ((get_apl (disable_nodes g disabled) : ℚ) /
        ((((g.nodes.length : ℤ) - disabled.length) *
          ((g.nodes.length : ℤ) - disabled.length - 1) : ℤ) : ℚ))) ∧
    get_impact pathABC ["b"] = some 0 ∧
    (∀ x ∈ (disable_nodes pathABC ["b"]).nodes,
      (disable_nodes pathABC ["b"]).edges x = ∅) := by
  refine ⟨?_, ?_, ?_⟩
  · intro g disabled h
    have hn : (disabled.length : ℤ) + 2 ≤ (g.nodes.length : ℤ) := by
      exact_mod_cast h
    have hz : ((g.nodes.length : ℤ) - disabled.length) *
        ((g.nodes.length : ℤ) - disabled.length - 1) ≠ 0 := by
      intro hz
      rcases mul_eq_zero.mp hz with h0 | h0 <;> omega
    unfold get_impact
    rw [if_neg hz]
  · unfold get_impact
    rw [if_neg (by decide)]
    have h0 : get_apl (disable_nodes pathABC ["b"]) = 0 := by decide
    rw [h0]
    norm_num
  · decide

/-- Witness for the amended C3 at the path graph a–b–c with nothing
disabled. -/
theorem claim3_witness :
    ([] : List String).length + 2 ≤ pathABC.nodes.length ∧
      get_impact pathABC [] = some ((get_apl (disable_nodes pathABC []) : ℚ) /
        ((((pathABC.nodes.length : ℤ) - ([] : List String).length) *
          ((pathABC.nodes.length : ℤ) - ([] : List String).length - 1) : ℤ) : ℚ)) :=
  ⟨by decide, claim3_impact_quotient.1 pathABC [] (by decide)⟩

/-- C4 counterexample: on a one-node graph with nothing disabled we have
m = 0 < 1 = n, yet `get_impact` fails with the division error (the claim
says failure occurs exactly when m ≥ n). -/
theorem claim4_counterexample :
    ([] : List String).length < oneNodeG.nodes.length ∧
      get_impact oneNodeG [] = none := by
  constructor
  · decide
  · decide

/-- C4 (amended): for disabled lists no larger than the node count, the
division fails exactly when m = n or m = n − 1 (zero denominator); for
m ≤ n − 2 a value is returned. -/
theorem claim4_impact_error_iff :
    ∀ (g : Graph) (disabled : List String),
      disabled.length ≤ g.nodes.length →
      (get_impact g disabled = none ↔
        (disabled.length = g.nodes.length ∨
          disabled.length + 1 = g.nodes.length)) := by
  intro g disabled hmn
  unfold get_impact
  constructor
  · intro h
    by_cases hz : ((g.nodes.length : ℤ) - disabled.length) *
        ((g.nodes.length : ℤ) - disabled.length - 1) = 0
    · rcases mul_eq_zero.mp hz with h0 | h0
      · left
        omega
      · right
        omega
    · rw [if_neg hz] at h
      exact absurd h (by simp)
  · intro h
    have hz : ((g.nodes.length : ℤ) - disabled.length) *
        ((g.nodes.length : ℤ) - disabled.length - 1) = 0 := by
      rcases h with h | h
      · have h0 : ((g.nodes.length : ℤ) - disabled.length) = 0 := by omega
        rw [h0, zero_mul]
      · have h0 : ((g.nodes.length : ℤ) - disabled.length - 1) = 0 := by omega
        rw [h0, mul_zero]
    rw [if_pos hz]

/-- Witness for the amended C4 at the two-node path with one node disabled
(m = n − 1: the division error occurs). -/
theorem claim4_witness :
    (["b"] : List String).length ≤ pathAB.nodes.length ∧
      (get_impact pathAB ["b"] = none ↔
        ((["b"] : List String).length = pathAB.nodes.length ∨
          (["b"] : List String).length + 1 = pathAB.nodes.length)) :=
  ⟨by decide, claim4_impact_error_iff pathAB ["b"] (by decide)⟩

/-- C5 (code bug): `enable_nodes` joins the complement list into one string
(`" ".join(disabled)`), so the `n not in disabled` check inside
`disable_nodes` becomes a substring test.  Enabling ["b"] in an edgeless
graph with nodes ["b", "ab"] removes every node ("b" is a substring of the
joined string "ab"), whereas the claimed `reduce(graph, n ∈ enabled)` keeps
exactly ["b"] (as the sibling implementation `net.py` line 75 does with a
genuine membership predicate). -/
theorem claim5_enable_nodes_substring_bug :
    (enable_nodes overlapG ["b"]).nodes = [] ∧
      overlapG.nodes.filter (fun n => decide (n ∈ (["b"] : List String))) = ["b"] := by
  constructor
  · decide
  · decide

/-- C6: for every graph satisfying the symmetry invariant with edge
endpoints drawn from the node set, and every removal list, `disable_nodes`
returns the order-preserving filter of the node list, restricts every
surviving node's edge set to the surviving node set, and the result again
satisfies the symmetry and closure invariants. -/
theorem claim6_reduce_invariants :
    ∀ (g : Graph) (disabled : List String),
      (∀ a ∈ g.nodeF, ∀ b ∈ g.nodeF, (b ∈ g.edges a ↔ a ∈ g.edges b)) →
      EdgesClosed g →
      ((disable_nodes g disabled).nodes =
          g.nodes.filter (fun n => decide (n ∉ disabled)) ∧
        (∀ n ∈ (disable_nodes g disabled).nodes,
          (disable_nodes g disabled).edges n =
            g.edges n ∩ (disable_nodes g disabled).nodeF) ∧
        (∀ a ∈ (disable_nodes g disabled).nodeF,
          ∀ b ∈ (disable_nodes g disabled).nodeF,
          (b ∈ (disable_nodes g disabled).edges a ↔
            a ∈ (disable_nodes g disabled).edges b)) ∧
        EdgesClosed (disable_nodes g disabled)) := by
  intro g disabled hsym hc
  refine ⟨rfl, ?_, ?_, ?_⟩
  · intro n hn
    have hn' : n ∈ g.nodes ∧ n ∉ disabled := by
      simpa [disable_nodes, List.mem_filter] using hn
    ext x
    rw [mem_disable_edges, Finset.mem_inter, mem_disable_nodeF]
    constructor
    · rintro ⟨hx, hnx⟩
      have hxF : x ∈ g.nodeF := hc n (List.mem_toFinset.mpr hn'.1) hx
      exact ⟨hx, hxF, hnx⟩
    · rintro ⟨hx, _, hnx⟩
      exact ⟨hx, hnx⟩
  · intro a ha b hb
    have ha' := mem_disable_nodeF.mp ha
    have hb' := mem_disable_nodeF.mp hb
    rw [mem_disable_edges, mem_disable_edges]
    constructor
    · rintro ⟨hx, _⟩
      exact ⟨(hsym a ha'.1 b hb'.1).mp hx, ha'.2⟩
    · rintro ⟨hx, _⟩
      exact ⟨(hsym a ha'.1 b hb'.1).mpr hx, hb'.2⟩
  · intro a ha x hx
    have ha' := mem_disable_nodeF.mp ha
    have hx' := mem_disable_edges.mp hx
    exact mem_disable_nodeF.mpr ⟨hc a ha'.1 hx'.1, hx'.2⟩

/-- Witness for C6 at the path graph a–b–c with {"b"} disabled. -/
theorem claim6_witness :
    (∀ a ∈ pathABC.nodeF, ∀ b ∈ pathABC.nodeF,
      (b ∈ pathABC.edges a ↔ a ∈ pathABC.edges b)) ∧
    EdgesClosed pathABC ∧
    ((disable_nodes pathABC ["b"]).nodes =
        pathABC.nodes.filter (fun n => decide (n ∉ (["b"] : List String))) ∧
      (∀ n ∈ (disable_nodes pathABC ["b"]).nodes,
        (disable_nodes pathABC ["b"]).edges n =
          pathABC.edges n ∩ (disable_nodes pathABC ["b"]).nodeF) ∧
      (∀ a ∈ (disable_nodes pathABC ["b"]).nodeF,
        ∀ b ∈ (disable_nodes pathABC ["b"]).nodeF,
        (b ∈ (disable_nodes pathABC ["b"]).edges a ↔
          a ∈ (disable_nodes pathABC ["b"]).edges b)) ∧
      EdgesClosed (disable_nodes pathABC ["b"])) :=
  ⟨by decide, by decide,
    claim6_reduce_invariants pathABC ["b"] (by decide) (by decide)⟩

/-- C7: `calculate_asp` raises the "Graph is disconnected" assertion exactly
when some source node fails to reach some node of the graph; in particular
it does so (rather than returning any partial result) on the graph made of
two isolated nodes. -/
theorem claim7_asp_connectivity_error :
    (∀ g : Graph, EdgesClosed g → g.nodes.Nodup →
      (calculate_asp g = Except.error AspErr.disconnected ↔
        ∃ src ∈ g.nodes, ∃ v ∈ g.nodes, v ∉ reachSet g src)) ∧
    calculate_asp twoIsolatedG = Except.error AspErr.disconnected := by
  constructor
  · intro g hc hnd
    rw [calculate_asp_disc_iff hc hnd]
    constructor
    · rintro ⟨s, hs, hne⟩
      have hsub : reachSet g s ⊆ g.nodeF :=
        ball_subset_nodeF hc (List.mem_toFinset.mpr hs) _
      obtain ⟨v, hv, hnv⟩ := Finset.exists_of_ssubset (lt_of_le_of_ne hsub hne)
      exact ⟨s, hs, v, List.mem_toFinset.mp hv, hnv⟩
    · rintro ⟨s, hs, v, hv, hnv⟩
      refine ⟨s, hs, fun he => hnv ?_⟩
      rw [he]
      exact List.mem_toFinset.mpr hv
  · rfl

/-- Witness for C7 at the two-isolated-node graph. -/
theorem claim7_witness :
    EdgesClosed twoIsolatedG ∧ twoIsolatedG.nodes.Nodup ∧
      (calculate_asp twoIsolatedG = Except.error AspErr.disconnected ↔
        ∃ src ∈ twoIsolatedG.nodes, ∃ v ∈ twoIsolatedG.nodes,
          v ∉ reachSet twoIsolatedG src) :=
  ⟨by decide, by decide,
    claim7_asp_connectivity_error.1 twoIsolatedG (by decide) (by decide)⟩

/-- C10: `calculate_asp` fails with the division-by-zero error on every
one-node graph (the connectivity assertion passes, but the per-source path
count `npaths` is zero) and on the empty graph (`mean` of an empty list), so
a defined result needs at least two nodes, not merely connectivity. -/
theorem claim10_asp_divzero_small_graphs :
    (∀ g : Graph, EdgesClosed g → g.nodes.Nodup → g.nodes.length = 1 →
      calculate_asp g = Except.error AspErr.divByZero) ∧
    (∀ g : Graph, g.nodes = [] →
      calculate_asp g = Except.error AspErr.divByZero) :=
  ⟨fun _ hc hnd h1 => calculate_asp_one_node hc hnd h1,
   fun _ h => calculate_asp_empty h⟩

/-- Witness for C10 at the one-node graph and the empty graph. -/
theorem claim10_witness :
    EdgesClosed oneNodeG ∧ oneNodeG.nodes.Nodup ∧ oneNodeG.nodes.length = 1 ∧
      calculate_asp oneNodeG = Except.error AspErr.divByZero ∧
      emptyNodesG.nodes = [] ∧
      calculate_asp emptyNodesG = Except.error AspErr.divByZero :=
  ⟨by decide, by decide, by decide,
    claim10_asp_divzero_small_graphs.1 oneNodeG (by decide) (by decide) (by decide),
    rfl, claim10_asp_divzero_small_graphs.2 emptyNodesG rfl⟩

theorem mapOption_forall2 {α β : Type} (f : α → Option β) :
    ∀ {l : List α} {vs : List β}, mapOption f l = some vs →
      List.Forall₂ (fun a b => f a = some b) l vs := by
  intro l
  induction l with
  | nil =>
    intro vs h
    have h' : (some [] : Option (List β)) = some vs := h
    cases h'
    exact List.Forall₂.nil
  | cons a l ih =>
    intro vs h
    rw [mapOption] at h
    rcases hfa : f a with _ | v
    · rw [hfa] at h
      have h' : (none : Option (List β)) = some vs := h
      exact absurd h' (by simp)
    · rw [hfa] at h
      rcases hml : mapOption f l with _ | vs'
      · rw [hml] at h
        have h' : (none : Option (List β)) = some vs := h
        exact absurd h' (by simp)
      · rw [hml] at h
        have h' : (some (v :: vs') : Option (List β)) = some vs := h
        cases h'
        exact List.Forall₂.cons hfa (ih hml)

theorem get_impact_list_length {g : Graph} {sample1 : Nat → List String}
    {t : Nat} {vals : List ℚ}
    (h : get_impact_list g sample1 t = some vals) : vals.length = t := by
  rw [get_impact_list] at h
  have hf := mapOption_forall2 _ h
  have hlen := hf.length_eq
  simpa using hlen.symm

theorem forall2_length_map {l1 : List (Nat × Nat)} {l2 : List (List ℚ)}
    (hf : List.Forall₂ (fun (p : Nat × Nat) (b : List ℚ) => b.length = p.2)
      l1 l2) :
    l2.map List.length = l1.map Prod.snd := by
  induction hf with
  | nil => rfl
  | cons h1 _ ih => simp [h1, ih]

/-- C8: the dispatcher hands each of the first W−1 workers `⌊trials/W⌋`
trials and the last worker the remainder `trials − (W−1)·⌊trials/W⌋`; a
worker whose `get_impact_list` completes without raising (returning a list
at all) returns exactly its assigned number of impact values, and when the
whole dispatch completes (no worker raised, so `pool.map` did not abort),
the per-worker lists concatenated in worker order form a list of length
exactly `trials`. -/
theorem claim8_dispatcher_partition :
    ∀ (trials nworkers i t : Nat) (g : Graph)
      (samples : Nat → Nat → List String) (sample1 : Nat → List String)
      (vals out : List ℚ),
      1 ≤ nworkers → i < nworkers - 1 →
      ((trials_per_task trials nworkers).length = nworkers ∧
        (trials_per_task trials nworkers).getD i 0 = trials / nworkers ∧
        (trials_per_task trials nworkers).getD (nworkers - 1) 0 =
          trials - (nworkers - 1) * (trials / nworkers) ∧
        (get_impact_list g sample1 t = some vals → vals.length = t) ∧
        (run_impact_trials g samples trials nworkers = some out →
          out.length = trials)) := by
  intro trials nworkers i t g samples sample1 vals out hw hi
  have hmul : trials / nworkers * (nworkers - 1) ≤ trials := by
    have h1 : trials / nworkers * (nworkers - 1) ≤ trials / nworkers * nworkers :=
      Nat.mul_le_mul_left _ (by omega)
    have h2 := Nat.div_mul_le_self trials nworkers
    omega
  have hcm : (nworkers - 1) * (trials / nworkers) =
      trials / nworkers * (nworkers - 1) := Nat.mul_comm _ _
  have hsum : (trials_per_task trials nworkers).sum = trials := by
    rw [trials_per_task, List.sum_append, List.sum_replicate, smul_eq_mul]
    simp
    omega
  refine ⟨?_, ?_, ?_, ?_, ?_⟩
  · rw [trials_per_task, List.length_append, List.length_replicate]
    simp
    omega
  · rw [trials_per_task,
      List.getD_append _ _ _ i (by rw [List.length_replicate]; exact hi),
      List.getD_eq_getElem _ _ (by rw [List.length_replicate]; exact hi),
      List.getElem_replicate]
  · rw [trials_per_task,
      List.getD_append_right _ _ _ _ (by rw [List.length_replicate])]
    simp [Nat.mul_comm]
  · exact get_impact_list_length
  · intro hrun
    rw [run_impact_trials] at hrun
    rcases hmo : mapOption (fun p => get_impact_list g (samples p.1) p.2)
        (trials_per_task trials nworkers).enum with _ | task_results
    · rw [hmo] at hrun
      have h' : (none : Option (List ℚ)) = some out := hrun
      exact absurd h' (by simp)
    · rw [hmo] at hrun
      have h' : (some task_results.flatten : Option (List ℚ)) = some out := hrun
      have hout : out = task_results.flatten := by
        cases h'
        rfl
      have hf := mapOption_forall2 _ hmo
      have hf2 : List.Forall₂
          (fun (p : Nat × Nat) (b : List ℚ) => b.length = p.2)
          (trials_per_task trials nworkers).enum task_results :=
        List.Forall₂.imp (fun _ _ hpb => get_impact_list_length hpb) hf
      have hmap := forall2_length_map hf2
      rw [hout, List.length_flatten, hmap, List.enum_map_snd, hsum]

/-- Witness for C8 with 10 trials over 3 workers. -/
theorem claim8_witness :
    (1 : Nat) ≤ 3 ∧ (0 : Nat) < 3 - 1 ∧
      ((trials_per_task 10 3).length = 3 ∧
        (trials_per_task 10 3).getD 0 0 = 10 / 3 ∧
        (trials_per_task 10 3).getD (3 - 1) 0 = 10 - (3 - 1) * (10 / 3) ∧
        (get_impact_list pathABC (fun _ => ["b"]) 4 = some [0, 0, 0, 0] →
          ([0, 0, 0, 0] : List ℚ).length = 4) ∧
        (run_impact_trials pathABC (fun _ _ => ["b"]) 10 3 =
            some (List.replicate 10 0) →
          (List.replicate 10 (0 : ℚ)).length = 10)) :=
  ⟨by decide, by decide,
    claim8_dispatcher_partition 10 3 0 4 pathABC (fun _ _ => ["b"])
      (fun _ => ["b"]) [0, 0, 0, 0] (List.replicate 10 0) (by decide) (by decide)⟩

theorem indsAfter_invariant {n : Nat} (hn : 0 < n) {inds0 : List Nat}
    (h0 : inds0.Nodup) (hlt : ∀ i ∈ inds0, i < n) (shifts : Nat → Nat) :
    ∀ k, (indsAfter n inds0 shifts k).Nodup ∧
      (∀ i ∈ indsAfter n inds0 shifts k, i < n) ∧
      (indsAfter n inds0 shifts k).length = inds0.length := by
  intro k
  induction k with
  | zero => exact ⟨h0, hlt, rfl⟩
  | succ k ih =>
    obtain ⟨hnd, hl, hlen⟩ := ih
    have heq : indsAfter n inds0 shifts (k + 1) =
        (indsAfter n inds0 shifts k).map (fun x => (x + shifts k) % n) := rfl
    refine ⟨?_, ?_, ?_⟩
    · rw [heq]
      apply List.Nodup.map_on ?_ hnd
      intro x hx y hy hxy
      have hx' := hl x hx
      have hy' := hl y hy
      have hmod : x % n = y % n := Nat.ModEq.add_right_cancel' (shifts k) hxy
      rwa [Nat.mod_eq_of_lt hx', Nat.mod_eq_of_lt hy'] at hmod
    · intro i hi
      rw [heq] at hi
      obtain ⟨x, _, rfl⟩ := List.mem_map.mp hi
      exact Nat.mod_lt _ hn
    · rw [heq, List.length_map, hlen]

/-- C9: for the pseudo-random strategy, each emitted sample's index list is
the previous sample's index list shifted by a common amount in [1, n−1]
(mod n), and every emitted sample consists of `m` distinct nodes. -/
theorem claim9_psuedo_sampler :
    ∀ (g : Graph) (inds0 : List Nat) (shifts : Nat → Nat) (m k : Nat),
      g.nodes.Nodup → inds0.Nodup → (∀ i ∈ inds0, i < g.nodes.length) →
      inds0.length = m → 0 < m → m < g.nodes.length →
      (∀ j, j < k + 2 → 1 ≤ shifts j ∧ shifts j < g.nodes.length) →
      ((∃ s, 1 ≤ s ∧ s ≤ g.nodes.length - 1 ∧
          psuedoSample g inds0 shifts (k + 1) =
            (shiftInds g.nodes.length s
              (indsAfter g.nodes.length inds0 shifts (k + 1))).map
              (fun i => g.nodes.getD i "")) ∧
        (psuedoSample g inds0 shifts k).Nodup ∧
        (psuedoSample g inds0 shifts k).length = m) := by
  intro g inds0 shifts m k hgnd h0 hlt hlen hm hmn hshift
  have hn : 0 < g.nodes.length := by omega
  obtain ⟨hnd, hl, hlen'⟩ := indsAfter_invariant hn h0 hlt shifts (k + 1)
  refine ⟨?_, ?_, ?_⟩
  · refine ⟨shifts (k + 1), (hshift (k + 1) (by omega)).1, ?_, rfl⟩
    have hlt' := (hshift (k + 1) (by omega)).2
    omega
  · apply List.Nodup.map_on ?_ hnd
    intro x hx y hy hxy
    have hx' := hl x hx
    have hy' := hl y hy
    rw [List.getD_eq_getElem _ _ hx', List.getD_eq_getElem _ _ hy'] at hxy
    exact (List.Nodup.getElem_inj_iff hgnd).mp hxy
  · rw [psuedoSample, List.length_map, hlen', hlen]

/-- Witness for C9 at the path graph a–b–c with one initial index and
constant shift 1. -/
theorem claim9_witness :
    pathABC.nodes.Nodup ∧ ([0] : List Nat).Nodup ∧
      (∀ i ∈ ([0] : List Nat), i < pathABC.nodes.length) ∧
      ([0] : List Nat).length = 1 ∧ (0 : Nat) < 1 ∧ 1 < pathABC.nodes.length ∧
      (∀ j, j < 0 + 2 → 1 ≤ (fun _ => 1 : Nat → Nat) j ∧
        (fun _ => 1 : Nat → Nat) j < pathABC.nodes.length) ∧
      ((∃ s, 1 ≤ s ∧ s ≤ pathABC.nodes.length - 1 ∧
          psuedoSample pathABC [0] (fun _ => 1) (0 + 1) =
            (shiftInds pathABC.nodes.length s
              (indsAfter pathABC.nodes.length [0] (fun _ => 1) (0 + 1))).map
              (fun i => pathABC.nodes.getD i "")) ∧
        (psuedoSample pathABC [0] (fun _ => 1) 0).Nodup ∧
        (psuedoSample pathABC [0] (fun _ => 1) 0).length = 1) :=
  ⟨by decide, by decide, by decide, by decide, by decide, by decide, by decide,
    claim9_psuedo_sampler pathABC [0] (fun _ => 1) 1 0 (by decide) (by decide)
      (by decide) (by decide) (by decide) (by decide) (by decide)⟩
